import Mathlib

/-!
Shallow embedding of the `version-vec` Rust crate (`src/lib.rs`).

The crate is generic over an id type `I : Ord + Copy` and a counter type
`T : Ord + Copy + Int` (an integer with `zero`, `one`, `+`, `max`).  We
instantiate both at `Nat`, the canonical model of the non-negative counter
abstraction (the crate's own tests use `usize`).

The Rust `enum Ordering` of the crate (with the fourth `Concurrent` case) is
named `VOrdering` here, because `Ordering` is already taken by Lean's core
three-valued ordering, which plays the role of Rust's `std::cmp::Ordering`.

Imperative cursor loops (`merge`, `cmp`) are rendered twice: as structurally
faithful recursive functions used by most theorems, and as fuel-indexed
step functions (`mergeLoop`, `cmpLoop`) that mirror the source's index
manipulation literally; bridging theorems prove the two agree and that the
loops terminate within an explicit fuel bound.
-/

namespace VersionVecLib

/-- The crate's four-valued `Ordering` enum: relations between two version
vectors, with `Concurrent` marking at least one concurrent update. -/
inductive VOrdering where
  | Less
  | Equal
  | Greater
  | Concurrent
deriving DecidableEq, Repr

/-- `Ordering::eat`: absorb one per-component comparison (`std::cmp::Ordering`)
into the accumulator.  Mirrors the Rust `match (order, *self)`. -/
def VOrdering.eat : VOrdering → Ordering → VOrdering
  | VOrdering.Equal, Ordering.lt => VOrdering.Less
  | VOrdering.Equal, Ordering.gt => VOrdering.Greater
  | VOrdering.Less, Ordering.gt => VOrdering.Concurrent
  | VOrdering.Greater, Ordering.lt => VOrdering.Concurrent
  | s, _ => s

/-- `VersionVec`: inner representation is a sorted vector of `(id, counter)`. -/
structure VersionVec where
  inner : List (Nat × Nat)
deriving DecidableEq, Repr

/-- `VersionVec::new`: empty vector. -/
def VersionVec.new : VersionVec := ⟨[]⟩

/-- `VersionVec::from_vec`: sort the input pairs by id (Rust's `sort_by` is a
stable sort comparing only the first components; `List.insertionSort` with
`a.1 ≤ b.1` is the same stable sort). -/
def VersionVec.from_vec (v : List (Nat × Nat)) : VersionVec :=
  ⟨v.insertionSort (fun a b => a.1 ≤ b.1)⟩

/-- `Clone for VersionVec`: clone the inner vector. -/
def VersionVec.clone (v : VersionVec) : VersionVec := ⟨v.inner⟩

/-- Loop body of `VersionVec::get`: scan the entries in order, return the
counter on an exact id match, bail out early once ids exceed the target. -/
def getAux (id : Nat) : List (Nat × Nat) → Option Nat
  | [] => none
  | p :: rest =>
    if p.1 = id then some p.2
    else if p.1 > id then none
    else getAux id rest

/-- `VersionVec::get`. -/
def VersionVec.get (v : VersionVec) (id : Nat) : Option Nat :=
  getAux id v.inner

/-- Recursive rendering of `VersionVec::bump_for`: the source finds the first
position whose id is `≥ id` (push `(id, 1)` at the end if none), then either
increments in place (exact match) or inserts `(id, 1)` at that position. -/
def bumpAux (id : Nat) : List (Nat × Nat) → List (Nat × Nat)
  | [] => [(id, 1)]
  | p :: rest =>
    if p.1 ≥ id then
      if p.1 = id then (p.1, p.2 + 1) :: rest
      else (id, 1) :: p :: rest
    else p :: bumpAux id rest

/-- `VersionVec::bump_for` (in-place mutation rendered as state passing). -/
def VersionVec.bump_for (v : VersionVec) (id : Nat) : VersionVec :=
  ⟨bumpAux id v.inner⟩

/-- Helper for `mergeAux`: walks the second list while the head of the
first list is pinned at `l :: ls`; `k` is `mergeAux ls`, the continuation that
resumes the main walk after the pinned head is consumed.  (This two-level
shape makes the recursion structural, so the function reduces inside the
kernel; `mergeAux_cons_cons` below restates the loop body in source shape.) -/
def mergeInner (l : Nat × Nat) (ls : List (Nat × Nat))
    (k : List (Nat × Nat) → List (Nat × Nat)) :
    List (Nat × Nat) → List (Nat × Nat)
  | [] => l :: ls
  | r :: rs =>
    if l.1 = r.1 then (l.1, max l.2 r.2) :: k rs
    else if l.1 < r.1 then l :: k (r :: rs)
    else r :: mergeInner l ls k rs

/-- Recursive rendering of the `VersionVec::merge` cursor loop.  Entries
before `self_idx` are settled; the loop appends the rest of `other` once
`self` is exhausted, stops once `other` is exhausted, and otherwise compares
the ids under both cursors: equal ids take the `max` of the counters and both
cursors advance; a smaller left id is already correct and only the left
cursor advances; a smaller right id is inserted before the left cursor and
both advance. -/
def mergeAux : List (Nat × Nat) → List (Nat × Nat) → List (Nat × Nat)
  | [], other => other
  | l :: ls, other => mergeInner l ls (mergeAux ls) other

/-- `VersionVec::merge` (in-place mutation rendered as state passing). -/
def VersionVec.merge (v other : VersionVec) : VersionVec :=
  ⟨mergeAux v.inner other.inner⟩

/-- `VersionVec::merged`: clone the receiver, merge `other` into the clone,
return the clone. -/
def VersionVec.merged (v other : VersionVec) : VersionVec :=
  (v.clone).merge other

/-- One per-component step of `VersionVec::cmp`: feed a non-`Equal`
contribution into the accumulator (the source tests `deltas.2 != Equal`
before calling `eat`; `eat` ignores `Equal` anyway). -/
def cmpStep (result : VOrdering) (d : Ordering) : VOrdering :=
  if d ≠ Ordering.eq then result.eat d else result

/-- Recursive rendering of the `VersionVec::cmp` cursor loop.  When `self` is
exhausted, any remaining non-zero entry of `other` contributes `Less`; when
`other` is exhausted, any remaining non-zero entry of `self` contributes
`Greater`; otherwise the smaller id (treated as absent on the other side,
contributing only if its counter is non-zero) or the pair of counters at an
equal id is folded into the accumulator, returning immediately on
`Concurrent`.  As with `mergeAux`, the loop is rendered in two structurally
recursive levels: `cmpInner` walks the second list while the head of the
first is pinned at `l :: ls`, and `k res o` stands for `cmpAux res ls o`; the
lemma `cmpAux_cons_cons` restates the loop body in source shape. -/
def cmpInner (l : Nat × Nat) (ls : List (Nat × Nat))
    (k : VOrdering → List (Nat × Nat) → VOrdering) (result : VOrdering) :
    List (Nat × Nat) → VOrdering
  | [] =>
    if (l :: ls).any (fun v => 0 < v.2) then result.eat Ordering.gt else result
  | r :: rs =>
    if l.1 = r.1 then
      let res := cmpStep result (compare l.2 r.2)
      if res = VOrdering.Concurrent then res else k res rs
    else if l.1 < r.1 then
      let res := cmpStep result (if l.2 ≠ 0 then Ordering.gt else Ordering.eq)
      if res = VOrdering.Concurrent then res else k res (r :: rs)
    else
      let res := cmpStep result (if r.2 ≠ 0 then Ordering.lt else Ordering.eq)
      if res = VOrdering.Concurrent then res else cmpInner l ls k res rs

def cmpAux : VOrdering → List (Nat × Nat) → List (Nat × Nat) → VOrdering
  | result, [], other =>
    if other.any (fun v => 0 < v.2) then result.eat Ordering.lt else result
  | result, l :: ls, other =>
    cmpInner l ls (fun res => cmpAux res ls) result other

/-- `VersionVec::cmp`. -/
def VersionVec.cmp (v other : VersionVec) : VOrdering :=
  cmpAux VOrdering.Equal v.inner other.inner

/-- `Vec::insert(n, a)`: insert `a` at position `n`. -/
def insertAt (n : Nat) (a : α) (l : List α) : List α :=
  l.take n ++ a :: l.drop n

/-- Fuel-indexed literal transcription of the `VersionVec::merge` loop,
cursors and in-place updates included.  `none` means the fuel ran out. -/
def mergeLoop (fuel : Nat) (inner other : List (Nat × Nat)) (si oi : Nat) :
    Option (List (Nat × Nat)) :=
  match fuel with
  | 0 => none
  | fuel + 1 =>
    if si ≥ inner.length then some (inner ++ other.drop oi)
    else if oi ≥ other.length then some inner
    else
      let l := inner.getD si (0, 0)
      let r := other.getD oi (0, 0)
      if l.1 = r.1 then
        mergeLoop fuel (inner.set si (l.1, max l.2 r.2)) other (si + 1) (oi + 1)
      else if l.1 < r.1 then
        mergeLoop fuel inner other (si + 1) oi
      else
        mergeLoop fuel (insertAt si r inner) other (si + 1) (oi + 1)

/-- Fuel-indexed literal transcription of the `VersionVec::cmp` loop. -/
def cmpLoop (fuel : Nat) (s o : List (Nat × Nat)) (si oi : Nat)
    (result : VOrdering) : Option VOrdering :=
  match fuel with
  | 0 => none
  | fuel + 1 =>
    if si ≥ s.length then
      if oi = o.length then some result
      else some (if (o.drop oi).any (fun v => 0 < v.2) then
        result.eat Ordering.lt else result)
    else if oi ≥ o.length then
      some (if (s.drop si).any (fun v => 0 < v.2) then
        result.eat Ordering.gt else result)
    else
      let l := s.getD si (0, 0)
      let r := o.getD oi (0, 0)
      if l.1 = r.1 then
        let res := cmpStep result (compare l.2 r.2)
        if res = VOrdering.Concurrent then some res
        else cmpLoop fuel s o (si + 1) (oi + 1) res
      else if l.1 < r.1 then
        let res := cmpStep result (if l.2 ≠ 0 then Ordering.gt else Ordering.eq)
        if res = VOrdering.Concurrent then some res
        else cmpLoop fuel s o (si + 1) oi res
      else
        let res := cmpStep result (if r.2 ≠ 0 then Ordering.lt else Ordering.eq)
        if res = VOrdering.Concurrent then some res
        else cmpLoop fuel s o si (oi + 1) res

/-! ### Specification-level helpers -/

/-- Counter of the first entry carrying `id`, if any. -/
def entryAt (id : Nat) : List (Nat × Nat) → Option Nat
  | [] => none
  | p :: rest => if p.1 = id then some p.2 else entryAt id rest

/-- Counter at `id` under the absence-as-zero reading. -/
def valAt (id : Nat) (l : List (Nat × Nat)) : Nat :=
  (entryAt id l).getD 0

/-- The structural invariant: entries strictly ascending by id (hence no two
entries share an id). -/
def sortedKeys (l : List (Nat × Nat)) : Prop :=
  l.Pairwise (fun p q => p.1 < q.1)

instance (l : List (Nat × Nat)) : Decidable (sortedKeys l) :=
  List.instDecidablePairwise l

/-- Invariants 1 and 2 of the spec, for a `VersionVec`. -/
def Inv (v : VersionVec) : Prop :=
  sortedKeys v.inner

instance (v : VersionVec) : Decidable (Inv v) :=
  List.instDecidablePairwise v.inner

/-- The counter the spec reads at an id: `get(id) or 0`. -/
def cnt (v : VersionVec) (id : Nat) : Nat :=
  (v.get id).getD 0

/-- Boolean evidence that some id carries a strictly greater counter on `a`
than on `b` (absence read as zero).  Scanning the entries of `a` suffices:
ids absent from `a` have value zero there and cannot exceed anything. -/
def gtE (a b : List (Nat × Nat)) : Bool :=
  a.any fun p => decide (valAt p.1 b < p.2)

/-- Total evidence-absorption: the value `cmp`'s accumulator reaches after
starting at `result` and eating `Greater` (if `g`) and `Less` (if `e`). -/
def combine (result : VOrdering) (g e : Bool) : VOrdering :=
  let r1 := if g then result.eat Ordering.gt else result
  if e then r1.eat Ordering.lt else r1

instance : IsTotal (Nat × Nat) (fun a b => a.1 ≤ b.1) :=
  ⟨fun a b => Nat.le_total a.1 b.1⟩

instance : IsTrans (Nat × Nat) (fun a b => a.1 ≤ b.1) :=
  ⟨fun _ _ _ hab hbc => Nat.le_trans hab hbc⟩

/-! ### Sequences of mutating operations -/

/-- One mutating call on a vector: `bump_for(id)` or in-place `merge(w)`. -/
inductive Op where
  | bump (id : Nat)
  | mergeWith (w : VersionVec)
deriving Repr

/-- Apply one mutating call. -/
def applyOp (v : VersionVec) : Op → VersionVec
  | Op.bump id => v.bump_for id
  | Op.mergeWith w => v.merge w

/-- The side condition of the spec's sortedness property: merge arguments
satisfy the invariant themselves (bumps are unconditional). -/
def OpOK : Op → Prop
  | Op.bump _ => True
  | Op.mergeWith w => Inv w

instance (op : Op) : Decidable (OpOK op) :=
  match op with
  | Op.bump _ => isTrue trivial
  | Op.mergeWith w => (inferInstance : Decidable (Inv w))

/-! ### Source-shaped equations for the two-level recursions -/

theorem mergeAux_nil_left (other : List (Nat × Nat)) : mergeAux [] other = other :=
  rfl

theorem mergeAux_nil_right (s : List (Nat × Nat)) : mergeAux s [] = s := by
  cases s <;> rfl

theorem mergeAux_cons_cons (l r : Nat × Nat) (ls rs : List (Nat × Nat)) :
    mergeAux (l :: ls) (r :: rs) =
      if l.1 = r.1 then (l.1, max l.2 r.2) :: mergeAux ls rs
      else if l.1 < r.1 then l :: mergeAux ls (r :: rs)
      else r :: mergeAux (l :: ls) rs := by
  by_cases h1 : l.1 = r.1
  · simp [mergeAux, mergeInner, h1]
  · by_cases h2 : l.1 < r.1 <;> simp [mergeAux, mergeInner, h1, h2]

theorem cmpAux_nil_left (result : VOrdering) (other : List (Nat × Nat)) :
    cmpAux result [] other =
      if other.any (fun v => 0 < v.2) then result.eat Ordering.lt else result :=
  rfl

theorem cmpAux_nil_right (result : VOrdering) (l : Nat × Nat)
    (ls : List (Nat × Nat)) :
    cmpAux result (l :: ls) [] =
      if (l :: ls).any (fun v => 0 < v.2) then result.eat Ordering.gt
      else result :=
  rfl

theorem cmpAux_cons_cons (result : VOrdering) (l r : Nat × Nat)
    (ls rs : List (Nat × Nat)) :
    cmpAux result (l :: ls) (r :: rs) =
      if l.1 = r.1 then
        (if cmpStep result (compare l.2 r.2) = VOrdering.Concurrent
          then cmpStep result (compare l.2 r.2)
          else cmpAux (cmpStep result (compare l.2 r.2)) ls rs)
      else if l.1 < r.1 then
        (if cmpStep result (if l.2 ≠ 0 then Ordering.gt else Ordering.eq)
            = VOrdering.Concurrent
          then cmpStep result (if l.2 ≠ 0 then Ordering.gt else Ordering.eq)
          else cmpAux
            (cmpStep result (if l.2 ≠ 0 then Ordering.gt else Ordering.eq))
            ls (r :: rs))
      else
        (if cmpStep result (if r.2 ≠ 0 then Ordering.lt else Ordering.eq)
            = VOrdering.Concurrent
          then cmpStep result (if r.2 ≠ 0 then Ordering.lt else Ordering.eq)
          else cmpAux
            (cmpStep result (if r.2 ≠ 0 then Ordering.lt else Ordering.eq))
            (l :: ls) rs) := by
  by_cases h1 : l.1 = r.1
  · simp [cmpAux, cmpInner, h1]
  · by_cases h2 : l.1 < r.1 <;> simp [cmpAux, cmpInner, h1, h2]

/-! ### Basic lemmas about `entryAt`, `valAt` and the invariant -/

@[simp]
theorem entryAt_nil (id : Nat) : entryAt id [] = none := rfl

theorem entryAt_cons (id : Nat) (p : Nat × Nat) (l : List (Nat × Nat)) :
    entryAt id (p :: l) = if p.1 = id then some p.2 else entryAt id l := rfl

theorem valAt_cons (id : Nat) (p : Nat × Nat) (l : List (Nat × Nat)) :
    valAt id (p :: l) = if p.1 = id then p.2 else valAt id l := by
  by_cases h : p.1 = id <;> simp [valAt, entryAt_cons, h]

theorem entryAt_eq_none_of_forall_ne (id : Nat) (l : List (Nat × Nat))
    (h : ∀ p ∈ l, p.1 ≠ id) : entryAt id l = none := by
  induction l with
  | nil => rfl
  | cons p rest ih =>
    rw [entryAt_cons, if_neg (h p (List.mem_cons_self p rest))]
    exact ih fun q hq => h q (List.mem_cons_of_mem p hq)

theorem valAt_eq_zero_of_forall_lt (id : Nat) (l : List (Nat × Nat))
    (h : ∀ p ∈ l, id < p.1) : valAt id l = 0 := by
  rw [valAt, entryAt_eq_none_of_forall_ne id l fun p hp => (Nat.ne_of_gt (h p hp))]
  rfl

theorem sortedKeys_cons {p : Nat × Nat} {l : List (Nat × Nat)} :
    sortedKeys (p :: l) ↔ (∀ q ∈ l, p.1 < q.1) ∧ sortedKeys l :=
  List.pairwise_cons

theorem sortedKeys_tail {p : Nat × Nat} {l : List (Nat × Nat)}
    (h : sortedKeys (p :: l)) : sortedKeys l :=
  (sortedKeys_cons.1 h).2

theorem sortedKeys_head_lt {p : Nat × Nat} {l : List (Nat × Nat)}
    (h : sortedKeys (p :: l)) : ∀ q ∈ l, p.1 < q.1 :=
  (sortedKeys_cons.1 h).1

/-- Under the invariant, an entry of the list is the (unique) entry its id
maps to. -/
theorem entryAt_of_mem {l : List (Nat × Nat)} (hs : sortedKeys l)
    {p : Nat × Nat} (hp : p ∈ l) : entryAt p.1 l = some p.2 := by
  induction l with
  | nil => cases hp
  | cons q rest ih =>
    rcases List.mem_cons.1 hp with h | h
    · subst h; rw [entryAt_cons, if_pos rfl]
    · have hq : q.1 ≠ p.1 := Nat.ne_of_lt (sortedKeys_head_lt hs p h)
      rw [entryAt_cons, if_neg hq]
      exact ih (sortedKeys_tail hs) h

theorem mem_of_valAt_ne_zero {l : List (Nat × Nat)} {id : Nat}
    (h : valAt id l ≠ 0) : (id, valAt id l) ∈ l := by
  induction l with
  | nil => simp [valAt, entryAt] at h
  | cons p rest ih =>
    by_cases hp : p.1 = id
    · rw [valAt_cons, if_pos hp]
      have hpe : (id, p.2) = p := by cases p; simp_all
      rw [hpe]
      exact List.mem_cons_self _ _
    · rw [valAt_cons, if_neg hp] at h ⊢
      exact List.mem_cons_of_mem p (ih h)

/-- Under the invariant, the source `get` loop (with its early exit) computes
the first-entry lookup. -/
theorem getAux_eq_entryAt {l : List (Nat × Nat)} (hs : sortedKeys l)
    (id : Nat) : getAux id l = entryAt id l := by
  induction l with
  | nil => rfl
  | cons p rest ih =>
    by_cases h1 : p.1 = id
    · simp [getAux, entryAt_cons, h1]
    · by_cases h2 : p.1 > id
      · have : entryAt id rest = none :=
          entryAt_eq_none_of_forall_ne id rest fun q hq =>
            Nat.ne_of_gt (Nat.lt_trans h2 (sortedKeys_head_lt hs q hq))
        simp [getAux, entryAt_cons, h1, h2, this]
      · simp [getAux, entryAt_cons, h1, h2, ih (sortedKeys_tail hs)]

theorem cnt_eq_valAt {v : VersionVec} (h : Inv v) (id : Nat) :
    cnt v id = valAt id v.inner := by
  rw [cnt, VersionVec.get, getAux_eq_entryAt h, valAt]

theorem get_eq_entryAt {v : VersionVec} (h : Inv v) (id : Nat) :
    v.get id = entryAt id v.inner :=
  getAux_eq_entryAt h id

/-! ### Lemmas about `bump_for` -/

theorem mem_bumpAux {id : Nat} {l : List (Nat × Nat)} :
    ∀ q ∈ bumpAux id l, q ∈ l ∨ q.1 = id := by
  induction l with
  | nil => intro q hq; simp [bumpAux] at hq; simp [hq]
  | cons p rest ih =>
    intro q hq
    by_cases h1 : p.1 ≥ id
    · by_cases h2 : p.1 = id
      · simp only [bumpAux, if_pos h1, if_pos h2] at hq
        rcases List.mem_cons.1 hq with h | h
        · right; rw [h, h2]
        · left; exact List.mem_cons_of_mem p h
      · simp only [bumpAux, if_pos h1, if_neg h2] at hq
        rcases List.mem_cons.1 hq with h | h
        · right; rw [h]
        · left; exact h
    · simp only [bumpAux, if_neg h1] at hq
      rcases List.mem_cons.1 hq with h | h
      · left; rw [h]; exact List.mem_cons_self p rest
      · rcases ih q h with h' | h'
        · left; exact List.mem_cons_of_mem p h'
        · right; exact h'

theorem sortedKeys_bumpAux {id : Nat} {l : List (Nat × Nat)}
    (hs : sortedKeys l) : sortedKeys (bumpAux id l) := by
  induction l with
  | nil => simp [bumpAux, sortedKeys]
  | cons p rest ih =>
    by_cases h1 : p.1 ≥ id
    · by_cases h2 : p.1 = id
      · simp only [bumpAux, if_pos h1, if_pos h2]
        exact sortedKeys_cons.2
          ⟨fun q hq => sortedKeys_head_lt hs q hq, sortedKeys_tail hs⟩
      · have hlt : id < p.1 := Nat.lt_of_le_of_ne h1 (fun h => h2 h.symm)
        simp only [bumpAux, if_pos h1, if_neg h2]
        refine sortedKeys_cons.2 ⟨?_, hs⟩
        intro q hq
        rcases List.mem_cons.1 hq with h | h
        · rw [h]; exact hlt
        · exact Nat.lt_trans hlt (sortedKeys_head_lt hs q h)
    · have hgt : p.1 < id := Nat.lt_of_not_le h1
      simp only [bumpAux, if_neg h1]
      refine sortedKeys_cons.2 ⟨?_, ih (sortedKeys_tail hs)⟩
      intro q hq
      rcases mem_bumpAux q hq with h | h
      · exact sortedKeys_head_lt hs q h
      · rw [h]; exact hgt

theorem entryAt_bumpAux_self {id : Nat} {l : List (Nat × Nat)}
    (hs : sortedKeys l) : entryAt id (bumpAux id l) = some (valAt id l + 1) := by
  induction l with
  | nil => simp [bumpAux, entryAt, valAt]
  | cons p rest ih =>
    by_cases h1 : p.1 ≥ id
    · by_cases h2 : p.1 = id
      · simp only [bumpAux, if_pos h1, if_pos h2, entryAt_cons, if_pos h2,
          valAt_cons]
      · have hlt : id < p.1 := Nat.lt_of_le_of_ne h1 (fun h => h2 h.symm)
        have hz : valAt id (p :: rest) = 0 :=
          valAt_eq_zero_of_forall_lt id (p :: rest) (by
            intro q hq
            rcases List.mem_cons.1 hq with h | h
            · rw [h]; exact hlt
            · exact Nat.lt_trans hlt (sortedKeys_head_lt hs q h))
        simp only [bumpAux, if_pos h1, if_neg h2, entryAt_cons, hz]
        simp
    · have hgt : p.1 < id := Nat.lt_of_not_le h1
      have hne : p.1 ≠ id := Nat.ne_of_lt hgt
      simp only [bumpAux, if_neg h1, entryAt_cons, if_neg hne, valAt_cons,
        if_neg hne]
      exact ih (sortedKeys_tail hs)

theorem entryAt_bumpAux_other {id j : Nat} (hne : j ≠ id)
    (l : List (Nat × Nat)) : entryAt j (bumpAux id l) = entryAt j l := by
  induction l with
  | nil => simp [bumpAux, entryAt, Ne.symm hne]
  | cons p rest ih =>
    by_cases h1 : p.1 ≥ id
    · by_cases h2 : p.1 = id
      · have hpj : p.1 ≠ j := by rw [h2]; exact Ne.symm hne
        simp only [bumpAux, if_pos h1, if_pos h2, entryAt_cons, if_neg hpj]
      · simp only [bumpAux, if_pos h1, if_neg h2, entryAt_cons,
          if_neg (Ne.symm hne : ¬id = j)]
    · simp only [bumpAux, if_neg h1, entryAt_cons, ih]

/-! ### Lemmas about `mergeAux` -/

/-- Every entry of a merge comes from one of the inputs (the `max` of two
counters at an equal id is one of the two stored pairs). -/
theorem mem_mergeAux :
    ∀ (a b : List (Nat × Nat)), ∀ q ∈ mergeAux a b, q ∈ a ∨ q ∈ b := by
  intro a
  induction a with
  | nil => intro b q hq; right; rwa [mergeAux_nil_left] at hq
  | cons l ls iha =>
    intro b
    induction b with
    | nil => intro q hq; left; rwa [mergeAux_nil_right] at hq
    | cons r rs ihb =>
      intro q hq
      rw [mergeAux_cons_cons] at hq
      by_cases h1 : l.1 = r.1
      · rw [if_pos h1] at hq
        rcases List.mem_cons.1 hq with h | h
        · rcases max_choice l.2 r.2 with hm | hm
          · left; rw [h, hm]; exact List.mem_cons_self _ _
          · right; rw [h, hm, h1]; exact List.mem_cons_self _ _
        · rcases iha rs q h with h' | h'
          · exact Or.inl (List.mem_cons_of_mem l h')
          · exact Or.inr (List.mem_cons_of_mem r h')
      · rw [if_neg h1] at hq
        by_cases h2 : l.1 < r.1
        · rw [if_pos h2] at hq
          rcases List.mem_cons.1 hq with h | h
          · left; rw [h]; exact List.mem_cons_self _ _
          · rcases iha (r :: rs) q h with h' | h'
            · exact Or.inl (List.mem_cons_of_mem l h')
            · exact Or.inr h'
        · rw [if_neg h2] at hq
          rcases List.mem_cons.1 hq with h | h
          · right; rw [h]; exact List.mem_cons_self _ _
          · rcases ihb q h with h' | h'
            · exact Or.inl h'
            · exact Or.inr (List.mem_cons_of_mem r h')

/-- Merging two invariant-satisfying lists yields an invariant-satisfying
list: strictly ascending ids, hence no duplicates. -/
theorem sortedKeys_mergeAux :
    ∀ (a b : List (Nat × Nat)), sortedKeys a → sortedKeys b →
      sortedKeys (mergeAux a b) := by
  intro a
  induction a with
  | nil => intro b _ hb; rwa [mergeAux_nil_left]
  | cons l ls iha =>
    intro b
    induction b with
    | nil => intro ha _; rwa [mergeAux_nil_right]
    | cons r rs ihb =>
      intro ha hb
      rw [mergeAux_cons_cons]
      by_cases h1 : l.1 = r.1
      · rw [if_pos h1]
        refine sortedKeys_cons.2
          ⟨?_, iha rs (sortedKeys_tail ha) (sortedKeys_tail hb)⟩
        intro q hq
        rcases mem_mergeAux ls rs q hq with h | h
        · exact sortedKeys_head_lt ha q h
        · exact h1 ▸ sortedKeys_head_lt hb q h
      · rw [if_neg h1]
        by_cases h2 : l.1 < r.1
        · rw [if_pos h2]
          refine sortedKeys_cons.2 ⟨?_, iha (r :: rs) (sortedKeys_tail ha) hb⟩
          intro q hq
          rcases mem_mergeAux ls (r :: rs) q hq with h | h
          · exact sortedKeys_head_lt ha q h
          · rcases List.mem_cons.1 h with h' | h'
            · rw [h']; exact h2
            · exact Nat.lt_trans h2 (sortedKeys_head_lt hb q h')
        · have h3 : r.1 < l.1 :=
            Nat.lt_of_le_of_ne (Nat.le_of_not_lt h2) (fun h => h1 h.symm)
          rw [if_neg h2]
          refine sortedKeys_cons.2 ⟨?_, ihb ha (sortedKeys_tail hb)⟩
          intro q hq
          rcases mem_mergeAux (l :: ls) rs q hq with h | h
          · rcases List.mem_cons.1 h with h' | h'
            · rw [h']; exact h3
            · exact Nat.lt_trans h3 (sortedKeys_head_lt ha q h')
          · exact sortedKeys_head_lt hb q h

/-- The component-wise-maximum property of `mergeAux`, under the
absence-as-zero reading. -/
theorem valAt_mergeAux :
    ∀ (a b : List (Nat × Nat)), sortedKeys a → sortedKeys b → ∀ id,
      valAt id (mergeAux a b) = max (valAt id a) (valAt id b) := by
  intro a
  induction a with
  | nil =>
    intro b _ _ id
    rw [mergeAux_nil_left]
    simp [valAt, entryAt]
  | cons l ls iha =>
    intro b
    induction b with
    | nil =>
      intro ha _ id
      rw [mergeAux_nil_right]
      simp [valAt, entryAt]
    | cons r rs ihb =>
      intro ha hb id
      rw [mergeAux_cons_cons]
      by_cases h1 : l.1 = r.1
      · rw [if_pos h1]
        by_cases hid : l.1 = id
        · rw [valAt_cons, valAt_cons, valAt_cons, if_pos hid, if_pos hid,
            if_pos (h1 ▸ hid)]
        · rw [valAt_cons, valAt_cons, valAt_cons, if_neg hid, if_neg hid,
            if_neg (h1 ▸ hid)]
          exact iha rs (sortedKeys_tail ha) (sortedKeys_tail hb) id
      · rw [if_neg h1]
        by_cases h2 : l.1 < r.1
        · rw [if_pos h2]
          by_cases hid : l.1 = id
          · have hzb : valAt id (r :: rs) = 0 :=
              valAt_eq_zero_of_forall_lt id (r :: rs) (by
                intro q hq
                rcases List.mem_cons.1 hq with h | h
                · rw [h, ← hid]; exact h2
                · rw [← hid]
                  exact Nat.lt_trans h2 (sortedKeys_head_lt hb q h))
            rw [valAt_cons, valAt_cons, if_pos hid, if_pos hid, hzb]
            simp
          · rw [valAt_cons, valAt_cons, if_neg hid, if_neg hid]
            exact iha (r :: rs) (sortedKeys_tail ha) hb id
        · have h3 : r.1 < l.1 :=
            Nat.lt_of_le_of_ne (Nat.le_of_not_lt h2) (fun h => h1 h.symm)
          rw [if_neg h2]
          by_cases hid : r.1 = id
          · have hza : valAt id (l :: ls) = 0 :=
              valAt_eq_zero_of_forall_lt id (l :: ls) (by
                intro q hq
                rcases List.mem_cons.1 hq with h | h
                · rw [h, ← hid]; exact h3
                · rw [← hid]
                  exact Nat.lt_trans h3 (sortedKeys_head_lt ha q h))
            rw [valAt_cons, if_pos hid, hza, valAt_cons, if_pos hid]
            simp
          · rw [valAt_cons, if_neg hid]
            rw [valAt_cons id r rs, if_neg hid]
            exact ihb ha (sortedKeys_tail hb) id

/-- `mergeAux` is commutative as stated, with no invariant assumption: every
branch of the loop body is symmetric in the two inputs. -/
theorem mergeAux_comm : ∀ (a b : List (Nat × Nat)), mergeAux a b = mergeAux b a := by
  intro a
  induction a with
  | nil => intro b; rw [mergeAux_nil_left, mergeAux_nil_right]
  | cons l ls iha =>
    intro b
    induction b with
    | nil => rw [mergeAux_nil_left, mergeAux_nil_right]
    | cons r rs ihb =>
      rw [mergeAux_cons_cons, mergeAux_cons_cons]
      by_cases h1 : l.1 = r.1
      · rw [if_pos h1, if_pos h1.symm, h1, Nat.max_comm, iha rs]
      · by_cases h2 : l.1 < r.1
        · have h2' : ¬r.1 < l.1 := Nat.not_lt_of_lt h2
          rw [if_neg h1, if_pos h2, if_neg (fun h => h1 h.symm), if_neg h2',
            iha (r :: rs)]
        · have h3 : r.1 < l.1 :=
            Nat.lt_of_le_of_ne (Nat.le_of_not_lt h2) (fun h => h1 h.symm)
          rw [if_neg h1, if_neg h2, if_neg (fun h => h1 h.symm), if_pos h3, ihb]

/-! ### Lemmas about `cmp` -/

theorem combine_concurrent (g e : Bool) :
    combine VOrdering.Concurrent g e = VOrdering.Concurrent := by
  cases g <;> cases e <;> rfl

theorem if_concurrent_combine (r : VOrdering) (g e : Bool) :
    (if r = VOrdering.Concurrent then r else combine r g e) = combine r g e := by
  by_cases h : r = VOrdering.Concurrent
  · rw [if_pos h, h, combine_concurrent]
  · rw [if_neg h]

theorem eat_gt_combine (r : VOrdering) (g e : Bool) :
    (if r.eat Ordering.gt = VOrdering.Concurrent then r.eat Ordering.gt
      else combine (r.eat Ordering.gt) g e) = combine r true e := by
  cases r <;> cases g <;> cases e <;> rfl

theorem eat_lt_combine (r : VOrdering) (g e : Bool) :
    (if r.eat Ordering.lt = VOrdering.Concurrent then r.eat Ordering.lt
      else combine (r.eat Ordering.lt) g e) = combine r g true := by
  cases r <;> cases g <;> cases e <;> rfl

theorem gtE_nil_left (b : List (Nat × Nat)) : gtE [] b = false := rfl

theorem gtE_cons_left (l : Nat × Nat) (ls b : List (Nat × Nat)) :
    gtE (l :: ls) b = (decide (valAt l.1 b < l.2) || gtE ls b) := by
  simp [gtE]

theorem gtE_with_nil (a : List (Nat × Nat)) :
    gtE a [] = a.any fun p => decide (0 < p.2) := by
  simp [gtE, valAt, entryAt]

/-- Dropping a head entry of the second list whose id appears nowhere in the
first list does not change the evidence. -/
theorem gtE_cons_right_of_ne (a : List (Nat × Nat)) (x : Nat × Nat)
    (xs : List (Nat × Nat)) (h : ∀ p ∈ a, p.1 ≠ x.1) :
    gtE a (x :: xs) = gtE a xs := by
  induction a with
  | nil => rfl
  | cons p ps ih =>
    rw [gtE_cons_left, gtE_cons_left, valAt_cons,
      if_neg (fun hx : x.1 = p.1 => h p (List.mem_cons_self p ps) hx.symm),
      ih fun q hq => h q (List.mem_cons_of_mem p hq)]

theorem cmpStep_lt (acc : VOrdering) :
    cmpStep acc Ordering.lt = acc.eat Ordering.lt := rfl

theorem cmpStep_gt (acc : VOrdering) :
    cmpStep acc Ordering.gt = acc.eat Ordering.gt := rfl

theorem cmpStep_eq (acc : VOrdering) : cmpStep acc Ordering.eq = acc := rfl

/-- The central lemma about the `cmp` loop: started at any accumulator, the
loop computes exactly the absorption of the two pieces of existential
evidence into the accumulator. -/
theorem cmpAux_spec :
    ∀ (a b : List (Nat × Nat)) (acc : VOrdering), sortedKeys a → sortedKeys b →
      cmpAux acc a b = combine acc (gtE a b) (gtE b a) := by
  intro a
  induction a with
  | nil =>
    intro b acc _ _
    rw [cmpAux_nil_left, gtE_nil_left, gtE_with_nil]
    cases hb : b.any fun p => decide (0 < p.2) <;> simp [combine, hb]
  | cons l ls iha =>
    intro b
    induction b with
    | nil =>
      intro acc ha _
      rw [cmpAux_nil_right, gtE_nil_left, gtE_with_nil]
      cases hs : (l :: ls).any fun p => decide (0 < p.2) <;> simp [combine, hs]
    | cons r rs ihb =>
      intro acc ha hb
      rw [cmpAux_cons_cons]
      by_cases h1 : l.1 = r.1
      · rw [if_pos h1]
        have hab : gtE (l :: ls) (r :: rs) = (decide (r.2 < l.2) || gtE ls rs) := by
          rw [gtE_cons_left, valAt_cons, if_pos h1.symm,
            gtE_cons_right_of_ne ls r rs
              (fun q hq => h1 ▸ Nat.ne_of_gt (sortedKeys_head_lt ha q hq))]
        have hba : gtE (r :: rs) (l :: ls) = (decide (l.2 < r.2) || gtE rs ls) := by
          rw [gtE_cons_left, valAt_cons, if_pos h1,
            gtE_cons_right_of_ne rs l ls
              (fun q hq => h1 ▸ Nat.ne_of_gt (sortedKeys_head_lt hb q hq))]
        rw [hab, hba]
        rcases Nat.lt_trichotomy l.2 r.2 with hc | hc | hc
        · rw [compare_lt_iff_lt.2 hc, cmpStep_lt,
            iha rs (acc.eat Ordering.lt) (sortedKeys_tail ha) (sortedKeys_tail hb),
            eat_lt_combine, decide_eq_true hc,
            decide_eq_false (by omega : ¬r.2 < l.2)]
          simp
        · rw [compare_eq_iff_eq.2 hc, cmpStep_eq,
            iha rs acc (sortedKeys_tail ha) (sortedKeys_tail hb),
            if_concurrent_combine, decide_eq_false (by omega : ¬l.2 < r.2),
            decide_eq_false (by omega : ¬r.2 < l.2)]
          simp
        · rw [compare_gt_iff_gt.2 hc, cmpStep_gt,
            iha rs (acc.eat Ordering.gt) (sortedKeys_tail ha) (sortedKeys_tail hb),
            eat_gt_combine, decide_eq_true hc,
            decide_eq_false (by omega : ¬l.2 < r.2)]
          simp
      · by_cases h2 : l.1 < r.1
        · rw [if_neg h1, if_pos h2]
          have hvz : valAt l.1 (r :: rs) = 0 :=
            valAt_eq_zero_of_forall_lt l.1 (r :: rs) (by
              intro q hq
              rcases List.mem_cons.1 hq with h | h
              · rw [h]; exact h2
              · exact Nat.lt_trans h2 (sortedKeys_head_lt hb q h))
          have hab : gtE (l :: ls) (r :: rs)
              = (decide (0 < l.2) || gtE ls (r :: rs)) := by
            rw [gtE_cons_left, hvz]
          have hba : gtE (r :: rs) (l :: ls) = gtE (r :: rs) ls := by
            refine gtE_cons_right_of_ne (r :: rs) l ls ?_
            intro q hq
            rcases List.mem_cons.1 hq with h | h
            · rw [h]; exact Nat.ne_of_gt h2
            · exact Nat.ne_of_gt (Nat.lt_trans h2 (sortedKeys_head_lt hb q h))
          rw [hab, hba]
          by_cases hz : l.2 = 0
          · have hif : (if l.2 ≠ 0 then Ordering.gt else Ordering.eq)
                = Ordering.eq := by simp [hz]
            rw [hif, cmpStep_eq,
              iha (r :: rs) acc (sortedKeys_tail ha) hb, if_concurrent_combine,
              decide_eq_false (by omega : ¬0 < l.2)]
            simp
          · have hif : (if l.2 ≠ 0 then Ordering.gt else Ordering.eq)
                = Ordering.gt := by simp [hz]
            rw [hif, cmpStep_gt,
              iha (r :: rs) (acc.eat Ordering.gt) (sortedKeys_tail ha) hb,
              eat_gt_combine, decide_eq_true (Nat.pos_of_ne_zero hz)]
            simp
        · have h3 : r.1 < l.1 :=
            Nat.lt_of_le_of_ne (Nat.le_of_not_lt h2) (fun h => h1 h.symm)
          rw [if_neg h1, if_neg h2]
          have hvz : valAt r.1 (l :: ls) = 0 :=
            valAt_eq_zero_of_forall_lt r.1 (l :: ls) (by
              intro q hq
              rcases List.mem_cons.1 hq with h | h
              · rw [h]; exact h3
              · exact Nat.lt_trans h3 (sortedKeys_head_lt ha q h))
          have hba : gtE (r :: rs) (l :: ls)
              = (decide (0 < r.2) || gtE rs (l :: ls)) := by
            rw [gtE_cons_left, hvz]
          have hab : gtE (l :: ls) (r :: rs) = gtE (l :: ls) rs := by
            refine gtE_cons_right_of_ne (l :: ls) r rs ?_
            intro q hq
            rcases List.mem_cons.1 hq with h | h
            · rw [h]; exact Nat.ne_of_gt h3
            · exact Nat.ne_of_gt (Nat.lt_trans h3 (sortedKeys_head_lt ha q h))
          rw [hab, hba]
          by_cases hz : r.2 = 0
          · have hif : (if r.2 ≠ 0 then Ordering.lt else Ordering.eq)
                = Ordering.eq := by simp [hz]
            rw [hif, cmpStep_eq,
              ihb acc ha (sortedKeys_tail hb), if_concurrent_combine,
              decide_eq_false (by omega : ¬0 < r.2)]
            simp
          · have hif : (if r.2 ≠ 0 then Ordering.lt else Ordering.eq)
                = Ordering.lt := by simp [hz]
            rw [hif, cmpStep_lt,
              ihb (acc.eat Ordering.lt) ha (sortedKeys_tail hb),
              eat_lt_combine, decide_eq_true (Nat.pos_of_ne_zero hz)]
            simp

/-! ### The literal cursor loops agree with the recursive renderings and
terminate within an explicit fuel bound -/

theorem mergeLoop_eq :
    ∀ (fuel : Nat) (inner other : List (Nat × Nat)) (si oi : Nat),
      si ≤ inner.length →
      inner.length - si + (other.length - oi) < fuel →
      mergeLoop fuel inner other si oi
        = some (inner.take si ++ mergeAux (inner.drop si) (other.drop oi)) := by
  intro fuel
  induction fuel with
  | zero => intro inner other si oi _ hf; exact absurd hf (Nat.not_lt_zero _)
  | succ fuel ih =>
    intro inner other si oi hsi hf
    simp only [mergeLoop]
    by_cases h1 : si ≥ inner.length
    · rw [if_pos h1, List.take_of_length_le h1, List.drop_eq_nil_iff.2 h1,
        mergeAux_nil_left]
    · rw [if_neg h1]
      have hsilt : si < inner.length := Nat.lt_of_not_le h1
      by_cases h2 : oi ≥ other.length
      · rw [if_pos h2, List.drop_eq_nil_iff.2 h2, mergeAux_nil_right,
          List.take_append_drop]
      · rw [if_neg h2]
        have hoilt : oi < other.length := Nat.lt_of_not_le h2
        have hl : inner.getD si (0, 0) = inner[si] := List.getD_eq_getElem _ _ hsilt
        have hr : other.getD oi (0, 0) = other[oi] := List.getD_eq_getElem _ _ hoilt
        have hdi : inner.drop si = inner[si] :: inner.drop (si + 1) :=
          List.drop_eq_getElem_cons hsilt
        have hdo : other.drop oi = other[oi] :: other.drop (oi + 1) :=
          List.drop_eq_getElem_cons hoilt
        have hA : (inner.take si).length = si := by
          rw [List.length_take]; omega
        rw [hl, hr]
        by_cases h3 : inner[si].1 = other[oi].1
        · rw [if_pos h3]
          have hsets : inner.set si (inner[si].1, max inner[si].2 other[oi].2)
              = (inner.take si ++ [(inner[si].1, max inner[si].2 other[oi].2)])
                ++ inner.drop (si + 1) := by
            rw [List.set_eq_take_cons_drop _ hsilt]; simp
          have hlen : (inner.set si
              (inner[si].1, max inner[si].2 other[oi].2)).length
              = inner.length := List.length_set ..
          have hlen2 : (inner.take si
              ++ [(inner[si].1, max inner[si].2 other[oi].2)]).length
              = si + 1 := by
            rw [List.length_append, hA]; rfl
          rw [ih _ other (si + 1) (oi + 1) (by rw [hlen]; omega)
            (by rw [hlen]; omega), hsets, List.take_left' hlen2,
            List.drop_left' hlen2, hdi, hdo, mergeAux_cons_cons, if_pos h3]
          simp
        · rw [if_neg h3]
          by_cases h4 : inner[si].1 < other[oi].1
          · rw [if_pos h4]
            have htk : inner.take (si + 1) = inner.take si ++ [inner[si]] := by
              rw [← List.take_concat_get _ _ hsilt, List.concat_eq_append]
            rw [ih inner other (si + 1) oi (by omega) (by omega), hdi, hdo,
              mergeAux_cons_cons, if_neg h3, if_pos h4, ← hdo, htk,
              List.append_assoc]
            rfl
          · rw [if_neg h4]
            have hins : insertAt si (other[oi]) inner
                = (inner.take si ++ [other[oi]]) ++ inner.drop si := by
              rw [insertAt]; simp
            have hlen2 : (inner.take si ++ [other[oi]]).length = si + 1 := by
              rw [List.length_append, hA]; rfl
            have hILen : (insertAt si (other[oi]) inner).length
                = inner.length + 1 := by
              rw [hins, List.length_append, List.length_append, hA,
                List.length_drop]
              simp; omega
            rw [ih (insertAt si (other[oi]) inner) other (si + 1) (oi + 1)
              (by rw [hILen]; omega) (by rw [hILen]; omega), hins,
              List.take_left' hlen2, List.drop_left' hlen2, hdi, hdo,
              mergeAux_cons_cons, if_neg h3, if_neg h4]
            simp

theorem cmpLoop_eq :
    ∀ (fuel : Nat) (s o : List (Nat × Nat)) (si oi : Nat) (acc : VOrdering),
      s.length - si + (o.length - oi) < fuel →
      cmpLoop fuel s o si oi acc = some (cmpAux acc (s.drop si) (o.drop oi)) := by
  intro fuel
  induction fuel with
  | zero => intro s o si oi acc hf; exact absurd hf (Nat.not_lt_zero _)
  | succ fuel ih =>
    intro s o si oi acc hf
    simp only [cmpLoop]
    by_cases h1 : si ≥ s.length
    · rw [if_pos h1, List.drop_eq_nil_iff.2 h1, cmpAux_nil_left]
      by_cases hoi : oi = o.length
      · rw [if_pos hoi, List.drop_eq_nil_iff.2 (Nat.le_of_eq hoi.symm)]
        simp
      · rw [if_neg hoi]
    · rw [if_neg h1]
      have hsilt : si < s.length := Nat.lt_of_not_le h1
      have hdi : s.drop si = s[si] :: s.drop (si + 1) :=
        List.drop_eq_getElem_cons hsilt
      have hl : s.getD si (0, 0) = s[si] := List.getD_eq_getElem _ _ hsilt
      by_cases h2 : oi ≥ o.length
      · rw [if_pos h2, List.drop_eq_nil_iff.2 h2, hdi, cmpAux_nil_right, ← hdi]
      · rw [if_neg h2]
        have hoilt : oi < o.length := Nat.lt_of_not_le h2
        have hdo : o.drop oi = o[oi] :: o.drop (oi + 1) :=
          List.drop_eq_getElem_cons hoilt
        have hr : o.getD oi (0, 0) = o[oi] := List.getD_eq_getElem _ _ hoilt
        rw [hl, hr, hdi, hdo, cmpAux_cons_cons]
        by_cases h3 : s[si].1 = o[oi].1
        · rw [if_pos h3, if_pos h3]
          by_cases hc : cmpStep acc (compare s[si].2 o[oi].2)
              = VOrdering.Concurrent
          · rw [if_pos hc, if_pos hc]
          · rw [if_neg hc, if_neg hc, ih s o (si + 1) (oi + 1) _ (by omega)]
        · rw [if_neg h3, if_neg h3]
          by_cases h4 : s[si].1 < o[oi].1
          · rw [if_pos h4, if_pos h4]
            by_cases hc : cmpStep acc
                (if s[si].2 ≠ 0 then Ordering.gt else Ordering.eq)
                = VOrdering.Concurrent
            · rw [if_pos hc, if_pos hc]
            · rw [if_neg hc, if_neg hc, ih s o (si + 1) oi _ (by omega), ← hdo]
          · rw [if_neg h4, if_neg h4]
            by_cases hc : cmpStep acc
                (if o[oi].2 ≠ 0 then Ordering.lt else Ordering.eq)
                = VOrdering.Concurrent
            · rw [if_pos hc, if_pos hc]
            · rw [if_neg hc, if_neg hc, ih s o si (oi + 1) _ (by omega), ← hdi]

/-! ### From Boolean evidence to the spec-level relations -/

theorem gtE_iff {a : List (Nat × Nat)} (hs : sortedKeys a)
    (b : List (Nat × Nat)) :
    gtE a b = true ↔ ∃ id, valAt id b < valAt id a := by
  constructor
  · intro h
    obtain ⟨p, hp, hlt⟩ := List.any_eq_true.1 h
    refine ⟨p.1, ?_⟩
    have hv : valAt p.1 a = p.2 := by
      rw [valAt, entryAt_of_mem hs hp]; rfl
    rw [hv]
    exact of_decide_eq_true hlt
  · rintro ⟨id, hlt⟩
    have hnz : valAt id a ≠ 0 := by omega
    refine List.any_eq_true.2 ⟨(id, valAt id a), mem_of_valAt_ne_zero hnz, ?_⟩
    exact decide_eq_true hlt

theorem gtE_false_iff {a : List (Nat × Nat)} (hs : sortedKeys a)
    (b : List (Nat × Nat)) :
    gtE a b = false ↔ ∀ id, valAt id a ≤ valAt id b := by
  constructor
  · intro h id
    by_contra hlt
    have ht := (gtE_iff hs b).2 ⟨id, Nat.lt_of_not_le hlt⟩
    rw [h] at ht
    cases ht
  · intro h
    cases hg : gtE a b
    · rfl
    · obtain ⟨id, hlt⟩ := (gtE_iff hs b).1 hg
      exact absurd (h id) (Nat.not_le_of_lt hlt)

theorem cmp_eq_combine {A B : VersionVec} (hA : Inv A) (hB : Inv B) :
    A.cmp B = combine VOrdering.Equal (gtE A.inner B.inner) (gtE B.inner A.inner) :=
  cmpAux_spec A.inner B.inner VOrdering.Equal hA hB

theorem cmp_eq_Equal_iff {A B : VersionVec} (hA : Inv A) (hB : Inv B) :
    A.cmp B = VOrdering.Equal ↔ ∀ id, cnt A id = cnt B id := by
  rw [cmp_eq_combine hA hB]
  simp only [cnt_eq_valAt hA, cnt_eq_valAt hB]
  cases hg : gtE A.inner B.inner <;> cases he : gtE B.inner A.inner
  · exact iff_of_true (by decide)
      (fun id => Nat.le_antisymm ((gtE_false_iff hA B.inner).1 hg id)
        ((gtE_false_iff hB A.inner).1 he id))
  · refine iff_of_false (by decide) (fun hall => ?_)
    obtain ⟨id, hlt⟩ := (gtE_iff hB A.inner).1 he
    have := hall id
    omega
  · refine iff_of_false (by decide) (fun hall => ?_)
    obtain ⟨id, hlt⟩ := (gtE_iff hA B.inner).1 hg
    have := hall id
    omega
  · refine iff_of_false (by decide) (fun hall => ?_)
    obtain ⟨id, hlt⟩ := (gtE_iff hA B.inner).1 hg
    have := hall id
    omega

theorem cmp_eq_Greater_iff {A B : VersionVec} (hA : Inv A) (hB : Inv B) :
    A.cmp B = VOrdering.Greater ↔
      (∀ id, cnt B id ≤ cnt A id) ∧ ∃ id, cnt B id < cnt A id := by
  rw [cmp_eq_combine hA hB]
  simp only [cnt_eq_valAt hA, cnt_eq_valAt hB]
  cases hg : gtE A.inner B.inner <;> cases he : gtE B.inner A.inner
  · refine iff_of_false (by decide) (fun h => ?_)
    obtain ⟨id, hlt⟩ := h.2
    exact absurd ((gtE_false_iff hA B.inner).1 hg id) (by omega)
  · refine iff_of_false (by decide) (fun h => ?_)
    obtain ⟨id, hlt⟩ := h.2
    exact absurd ((gtE_false_iff hA B.inner).1 hg id) (by omega)
  · exact iff_of_true (by decide)
      ⟨(gtE_false_iff hB A.inner).1 he, (gtE_iff hA B.inner).1 hg⟩
  · refine iff_of_false (by decide) (fun h => ?_)
    obtain ⟨id, hlt⟩ := (gtE_iff hB A.inner).1 he
    exact absurd (h.1 id) (by omega)

theorem cmp_eq_Less_iff {A B : VersionVec} (hA : Inv A) (hB : Inv B) :
    A.cmp B = VOrdering.Less ↔
      (∀ id, cnt A id ≤ cnt B id) ∧ ∃ id, cnt A id < cnt B id := by
  rw [cmp_eq_combine hA hB]
  simp only [cnt_eq_valAt hA, cnt_eq_valAt hB]
  cases hg : gtE A.inner B.inner <;> cases he : gtE B.inner A.inner
  · refine iff_of_false (by decide) (fun h => ?_)
    obtain ⟨id, hlt⟩ := h.2
    exact absurd ((gtE_false_iff hB A.inner).1 he id) (by omega)
  · exact iff_of_true (by decide)
      ⟨(gtE_false_iff hA B.inner).1 hg, (gtE_iff hB A.inner).1 he⟩
  · refine iff_of_false (by decide) (fun h => ?_)
    obtain ⟨id, hlt⟩ := h.2
    exact absurd ((gtE_false_iff hB A.inner).1 he id) (by omega)
  · refine iff_of_false (by decide) (fun h => ?_)
    obtain ⟨id, hlt⟩ := (gtE_iff hA B.inner).1 hg
    exact absurd (h.1 id) (by omega)

theorem cmp_eq_Concurrent_iff {A B : VersionVec} (hA : Inv A) (hB : Inv B) :
    A.cmp B = VOrdering.Concurrent ↔
      (∃ id, cnt B id < cnt A id) ∧ ∃ id, cnt A id < cnt B id := by
  rw [cmp_eq_combine hA hB]
  simp only [cnt_eq_valAt hA, cnt_eq_valAt hB]
  cases hg : gtE A.inner B.inner <;> cases he : gtE B.inner A.inner
  · refine iff_of_false (by decide) (fun h => ?_)
    obtain ⟨id, hlt⟩ := h.1
    exact absurd ((gtE_false_iff hA B.inner).1 hg id) (by omega)
  · refine iff_of_false (by decide) (fun h => ?_)
    obtain ⟨id, hlt⟩ := h.1
    exact absurd ((gtE_false_iff hA B.inner).1 hg id) (by omega)
  · refine iff_of_false (by decide) (fun h => ?_)
    obtain ⟨id, hlt⟩ := h.2
    exact absurd ((gtE_false_iff hB A.inner).1 he id) (by omega)
  · exact iff_of_true (by decide)
      ⟨(gtE_iff hA B.inner).1 hg, (gtE_iff hB A.inner).1 he⟩

/-! ### `from_vec` and the invariant -/

theorem sortedKeys_of_le_of_nodup {l : List (Nat × Nat)}
    (hle : l.Pairwise (fun p q => p.1 ≤ q.1)) (hnd : (l.map Prod.fst).Nodup) :
    sortedKeys l := by
  induction l with
  | nil => exact List.Pairwise.nil
  | cons p rest ih =>
    obtain ⟨hhd, htl⟩ := List.pairwise_cons.1 hle
    rw [List.map_cons, List.nodup_cons] at hnd
    refine List.pairwise_cons.2 ⟨?_, ih htl hnd.2⟩
    intro q hq
    refine Nat.lt_of_le_of_ne (hhd q hq) (fun he => ?_)
    exact hnd.1 (he ▸ List.mem_map_of_mem Prod.fst hq)

theorem from_vec_inv_of_nodup (v : List (Nat × Nat))
    (hnd : (v.map Prod.fst).Nodup) : Inv (VersionVec.from_vec v) := by
  have hs : List.Sorted (fun a b : Nat × Nat => a.1 ≤ b.1)
      (VersionVec.from_vec v).inner :=
    List.sorted_insertionSort (fun a b => a.1 ≤ b.1) v
  refine sortedKeys_of_le_of_nodup hs ?_
  exact ((List.perm_insertionSort (fun a b => a.1 ≤ b.1) v).map Prod.fst).nodup_iff.2 hnd

/-! ### All-zero vectors -/

theorem valAt_eq_zero_of_all_zero {l : List (Nat × Nat)}
    (h0 : ∀ p ∈ l, p.2 = 0) (id : Nat) : valAt id l = 0 := by
  induction l with
  | nil => rfl
  | cons p rest ih =>
    rw [valAt_cons]
    by_cases hp : p.1 = id
    · rw [if_pos hp]; exact h0 p (List.mem_cons_self p rest)
    · rw [if_neg hp]; exact ih fun q hq => h0 q (List.mem_cons_of_mem p hq)

theorem gtE_congr_right {b b' : List (Nat × Nat)}
    (h : ∀ k, valAt k b = valAt k b') (a : List (Nat × Nat)) :
    gtE a b = gtE a b' := by
  induction a with
  | nil => rfl
  | cons l ls ih => rw [gtE_cons_left, gtE_cons_left, h l.1, ih]

theorem gtE_false_of_all_zero {z : List (Nat × Nat)}
    (h0 : ∀ p ∈ z, p.2 = 0) (a : List (Nat × Nat)) : gtE z a = false := by
  refine List.any_eq_false.2 (fun p hp => ?_)
  rw [h0 p hp]
  simp

theorem Inv_new : Inv VersionVec.new := List.Pairwise.nil

theorem cnt_merged_eq {A B : VersionVec} (hA : Inv A) (hB : Inv B) (id : Nat) :
    cnt (A.merged B) id = max (valAt id A.inner) (valAt id B.inner) := by
  have hm : Inv (A.merged B) := sortedKeys_mergeAux _ _ hA hB
  rw [cnt_eq_valAt hm]
  exact valAt_mergeAux A.inner B.inner hA hB id

/-! ### The claims -/

/-- C1: for invariant-satisfying vectors `A` and `B`, `merged` (and hence the
in-place `merge` it wraps) produces the component-wise maximum — at every id
the result's counter is `max (A.get id or 0) (B.get id or 0)` — and the
resulting stored sequence is strictly ascending by id with no duplicate
ids. -/
theorem merged_componentwise_max (A B : VersionVec) (hA : Inv A) (hB : Inv B) :
    Inv (A.merged B) ∧
      ∀ id, cnt (A.merged B) id = max (cnt A id) (cnt B id) := by
  refine ⟨sortedKeys_mergeAux _ _ hA hB, fun id => ?_⟩
  rw [cnt_merged_eq hA hB id, cnt_eq_valAt hA id, cnt_eq_valAt hB id]

theorem merged_componentwise_max_witness :
    Inv (VersionVec.merged ⟨[(1, 3), (5, 2)]⟩ ⟨[(1, 1), (2, 7)]⟩) ∧
      ∀ id, cnt (VersionVec.merged ⟨[(1, 3), (5, 2)]⟩ ⟨[(1, 1), (2, 7)]⟩) id
        = max (cnt ⟨[(1, 3), (5, 2)]⟩ id) (cnt ⟨[(1, 1), (2, 7)]⟩ id) :=
  merged_componentwise_max ⟨[(1, 3), (5, 2)]⟩ ⟨[(1, 1), (2, 7)]⟩
    (by decide) (by decide)

/-- C2: for invariant-satisfying vectors, `cmp` returns exactly the causal
relationship under the absence-as-zero reading: `Equal` iff all per-id
counters agree; `Greater` iff `A` dominates with at least one strict excess;
`Less` symmetrically; `Concurrent` iff each side strictly exceeds the other
somewhere. -/
theorem cmp_characterization (A B : VersionVec) (hA : Inv A) (hB : Inv B) :
    (A.cmp B = VOrdering.Equal ↔ ∀ id, cnt A id = cnt B id) ∧
    (A.cmp B = VOrdering.Greater ↔
      (∀ id, cnt B id ≤ cnt A id) ∧ ∃ id, cnt B id < cnt A id) ∧
    (A.cmp B = VOrdering.Less ↔
      (∀ id, cnt A id ≤ cnt B id) ∧ ∃ id, cnt A id < cnt B id) ∧
    (A.cmp B = VOrdering.Concurrent ↔
      (∃ id, cnt B id < cnt A id) ∧ ∃ id, cnt A id < cnt B id) :=
  ⟨cmp_eq_Equal_iff hA hB, cmp_eq_Greater_iff hA hB, cmp_eq_Less_iff hA hB,
    cmp_eq_Concurrent_iff hA hB⟩

theorem cmp_characterization_witness :
    ((VersionVec.cmp ⟨[(1, 10), (2, 20)]⟩ ⟨[(1, 8), (2, 22)]⟩ = VOrdering.Equal
        ↔ ∀ id, cnt ⟨[(1, 10), (2, 20)]⟩ id = cnt ⟨[(1, 8), (2, 22)]⟩ id) ∧
      (VersionVec.cmp ⟨[(1, 10), (2, 20)]⟩ ⟨[(1, 8), (2, 22)]⟩ = VOrdering.Greater
        ↔ (∀ id, cnt ⟨[(1, 8), (2, 22)]⟩ id ≤ cnt ⟨[(1, 10), (2, 20)]⟩ id)
          ∧ ∃ id, cnt ⟨[(1, 8), (2, 22)]⟩ id < cnt ⟨[(1, 10), (2, 20)]⟩ id) ∧
      (VersionVec.cmp ⟨[(1, 10), (2, 20)]⟩ ⟨[(1, 8), (2, 22)]⟩ = VOrdering.Less
        ↔ (∀ id, cnt ⟨[(1, 10), (2, 20)]⟩ id ≤ cnt ⟨[(1, 8), (2, 22)]⟩ id)
          ∧ ∃ id, cnt ⟨[(1, 10), (2, 20)]⟩ id < cnt ⟨[(1, 8), (2, 22)]⟩ id) ∧
      (VersionVec.cmp ⟨[(1, 10), (2, 20)]⟩ ⟨[(1, 8), (2, 22)]⟩ = VOrdering.Concurrent
        ↔ (∃ id, cnt ⟨[(1, 8), (2, 22)]⟩ id < cnt ⟨[(1, 10), (2, 20)]⟩ id)
          ∧ ∃ id, cnt ⟨[(1, 10), (2, 20)]⟩ id < cnt ⟨[(1, 8), (2, 22)]⟩ id)) :=
  cmp_characterization ⟨[(1, 10), (2, 20)]⟩ ⟨[(1, 8), (2, 22)]⟩
    (by decide) (by decide)

/-- C3 counterexample: `from_vec` only sorts — it has no de-duplication pass —
so an input repeating id `1` builds a vector with two stored entries for
id `1`, violating Invariant 2. -/
theorem from_vec_duplicate_id_violates_invariant :
    ¬ Inv (VersionVec.from_vec [(1, 10), (1, 20)]) := by decide

/-- C3 (amended): for every input whose ids are pairwise distinct, the vector
built by `from_vec` satisfies the invariant (strictly ascending ids, hence no
two stored entries share an id); inputs that repeat an id yield a vector with
duplicate entries, as the source performs no de-duplication. -/
theorem from_vec_nodup_satisfies_invariant (v : List (Nat × Nat))
    (hnd : (v.map Prod.fst).Nodup) : Inv (VersionVec.from_vec v) :=
  from_vec_inv_of_nodup v hnd

theorem from_vec_nodup_satisfies_invariant_witness :
    (([(2, 5), (1, 3)] : List (Nat × Nat)).map Prod.fst).Nodup ∧
      Inv (VersionVec.from_vec [(2, 5), (1, 3)]) :=
  ⟨by decide, from_vec_nodup_satisfies_invariant [(2, 5), (1, 3)] (by decide)⟩

/-- C4: comparison antisymmetry for invariant-satisfying vectors — swapping
the arguments swaps `Greater` and `Less` and fixes `Equal` and
`Concurrent`. -/
theorem cmp_antisymmetry (A B : VersionVec) (hA : Inv A) (hB : Inv B) :
    (A.cmp B = VOrdering.Greater ↔ B.cmp A = VOrdering.Less) ∧
    (A.cmp B = VOrdering.Equal ↔ B.cmp A = VOrdering.Equal) ∧
    (A.cmp B = VOrdering.Concurrent ↔ B.cmp A = VOrdering.Concurrent) := by
  rw [cmp_eq_combine hA hB, cmp_eq_combine hB hA]
  cases hg : gtE A.inner B.inner <;> cases he : gtE B.inner A.inner <;>
    exact ⟨by decide, by decide, by decide⟩

theorem cmp_antisymmetry_witness :
    ((VersionVec.cmp ⟨[(1, 4)]⟩ ⟨[(2, 6)]⟩ = VOrdering.Greater
        ↔ VersionVec.cmp ⟨[(2, 6)]⟩ ⟨[(1, 4)]⟩ = VOrdering.Less) ∧
      (VersionVec.cmp ⟨[(1, 4)]⟩ ⟨[(2, 6)]⟩ = VOrdering.Equal
        ↔ VersionVec.cmp ⟨[(2, 6)]⟩ ⟨[(1, 4)]⟩ = VOrdering.Equal) ∧
      (VersionVec.cmp ⟨[(1, 4)]⟩ ⟨[(2, 6)]⟩ = VOrdering.Concurrent
        ↔ VersionVec.cmp ⟨[(2, 6)]⟩ ⟨[(1, 4)]⟩ = VOrdering.Concurrent)) :=
  cmp_antisymmetry ⟨[(1, 4)]⟩ ⟨[(2, 6)]⟩ (by decide) (by decide)

/-- C5: merge commutativity — merging `B` into a copy of `A` and merging `A`
into a copy of `B` produce equal vectors (equal stored sequences, hence equal
sets of `(id, counter)` pairs); no invariant assumption is even needed. -/
theorem merged_commutative (A B : VersionVec) : A.merged B = B.merged A :=
  congrArg VersionVec.mk (mergeAux_comm A.inner B.inner)

/-- C6: absence-as-zero — against a vector `Z` all of whose counters are
zero, `cmp` in either order returns the same answer as against the empty
vector, and merging in either order yields the same per-id counters as
merging with the empty vector. -/
theorem absence_as_zero (A Z : VersionVec) (hA : Inv A) (hZ : Inv Z)
    (h0 : ∀ p ∈ Z.inner, p.2 = 0) :
    A.cmp Z = A.cmp VersionVec.new ∧
    Z.cmp A = VersionVec.new.cmp A ∧
    (∀ id, cnt (A.merged Z) id = cnt (A.merged VersionVec.new) id) ∧
    (∀ id, cnt (Z.merged A) id = cnt (VersionVec.new.merged A) id) := by
  have hz : ∀ k, valAt k Z.inner = 0 := valAt_eq_zero_of_all_zero h0
  have hzz : ∀ k, valAt k Z.inner = valAt k VersionVec.new.inner := by
    intro k
    rw [hz k]
    simp [VersionVec.new, valAt, entryAt]
  refine ⟨?_, ?_, ?_, ?_⟩
  · rw [cmp_eq_combine hA hZ, cmp_eq_combine hA Inv_new,
      gtE_false_of_all_zero h0 A.inner, gtE_congr_right hzz A.inner]
    rfl
  · rw [cmp_eq_combine hZ hA, cmp_eq_combine Inv_new hA,
      gtE_false_of_all_zero h0 A.inner, gtE_congr_right hzz A.inner]
    rfl
  · intro id
    rw [cnt_merged_eq hA hZ id, cnt_merged_eq hA Inv_new id, hz id]
    rfl
  · intro id
    rw [cnt_merged_eq hZ hA id, cnt_merged_eq Inv_new hA id, hz id]
    rfl

theorem absence_as_zero_witness :
    (VersionVec.cmp ⟨[(1, 5)]⟩ ⟨[(1, 0), (3, 0)]⟩
        = VersionVec.cmp ⟨[(1, 5)]⟩ VersionVec.new ∧
      VersionVec.cmp ⟨[(1, 0), (3, 0)]⟩ ⟨[(1, 5)]⟩
        = VersionVec.cmp VersionVec.new ⟨[(1, 5)]⟩ ∧
      (∀ id, cnt (VersionVec.merged ⟨[(1, 5)]⟩ ⟨[(1, 0), (3, 0)]⟩) id
        = cnt (VersionVec.merged ⟨[(1, 5)]⟩ VersionVec.new) id) ∧
      (∀ id, cnt (VersionVec.merged ⟨[(1, 0), (3, 0)]⟩ ⟨[(1, 5)]⟩) id
        = cnt (VersionVec.merged VersionVec.new ⟨[(1, 5)]⟩) id)) :=
  absence_as_zero ⟨[(1, 5)]⟩ ⟨[(1, 0), (3, 0)]⟩
    (by decide) (by decide) (by decide)

/-- C7: bump postcondition — on an invariant-satisfying vector, `bump_for id`
keeps the invariant (new entries are inserted at the correct sorted
position), sets the counter at `id` to `(get id or 0) + 1`, and leaves the
entry of every other id exactly as it was. -/
theorem bump_for_spec (V : VersionVec) (id : Nat) (h : Inv V) :
    Inv (V.bump_for id) ∧ cnt (V.bump_for id) id = cnt V id + 1 ∧
      ∀ j, j ≠ id → (V.bump_for id).get j = V.get j := by
  have hInv : Inv (V.bump_for id) := sortedKeys_bumpAux h
  refine ⟨hInv, ?_, ?_⟩
  · show ((V.bump_for id).get id).getD 0 = cnt V id + 1
    rw [get_eq_entryAt hInv id]
    show (entryAt id (bumpAux id V.inner)).getD 0 = cnt V id + 1
    rw [entryAt_bumpAux_self h, cnt_eq_valAt h]
    rfl
  · intro j hj
    rw [get_eq_entryAt hInv j, get_eq_entryAt h j]
    exact entryAt_bumpAux_other hj V.inner

theorem bump_for_spec_witness :
    Inv (VersionVec.bump_for ⟨[(2, 4)]⟩ 1) ∧
      cnt (VersionVec.bump_for ⟨[(2, 4)]⟩ 1) 1 = cnt ⟨[(2, 4)]⟩ 1 + 1 ∧
      ∀ j, j ≠ 1 →
        (VersionVec.bump_for ⟨[(2, 4)]⟩ 1).get j = VersionVec.get ⟨[(2, 4)]⟩ j :=
  bump_for_spec ⟨[(2, 4)]⟩ 1 (by decide)

/-- C8: sortedness invariant — starting from any vector whose stored sequence
is strictly ascending by id (for example the empty vector built by `new`),
any sequence of `bump_for` and in-place `merge` calls (merge arguments
satisfying the invariant themselves) leaves the stored sequence strictly
ascending by id with no duplicates. -/
theorem sortedness_preserved_by_ops :
    ∀ (ops : List Op) (V : VersionVec), Inv V → (∀ op ∈ ops, OpOK op) →
      Inv (List.foldl applyOp V ops) := by
  intro ops
  induction ops with
  | nil => intro V hV _; exact hV
  | cons op rest ih =>
    intro V hV hops
    rw [List.foldl_cons]
    refine ih (applyOp V op) ?_
      (fun o ho => hops o (List.mem_cons_of_mem op ho))
    cases op with
    | bump id => exact sortedKeys_bumpAux hV
    | mergeWith w =>
      exact sortedKeys_mergeAux V.inner w.inner hV
        (hops _ (List.mem_cons_self _ _))

theorem sortedness_preserved_by_ops_witness :
    Inv VersionVec.new ∧
      (∀ op ∈ [Op.bump 3, Op.mergeWith ⟨[(1, 2), (4, 0)]⟩, Op.bump 1],
        OpOK op) ∧
      Inv (List.foldl applyOp VersionVec.new
        [Op.bump 3, Op.mergeWith ⟨[(1, 2), (4, 0)]⟩, Op.bump 1]) :=
  ⟨by decide, by decide,
    sortedness_preserved_by_ops
      [Op.bump 3, Op.mergeWith ⟨[(1, 2), (4, 0)]⟩, Op.bump 1]
      VersionVec.new (by decide) (by decide)⟩

/-- C9: termination — the literal fuel-indexed transcriptions of the `merge`
and `cmp` cursor loops reach their exit conditions within `|A| + |B| + 1`
iterations on every pair of vectors, returning exactly what the total
recursive renderings compute (the remaining operations `get`, `bump_for` and
`merged` are single bounded scans and are total by construction). -/
theorem loops_terminate (A B : VersionVec) :
    mergeLoop (A.inner.length + B.inner.length + 1) A.inner B.inner 0 0
      = some (A.merge B).inner ∧
    cmpLoop (A.inner.length + B.inner.length + 1) A.inner B.inner 0 0
      VOrdering.Equal = some (A.cmp B) := by
  constructor
  · rw [mergeLoop_eq _ A.inner B.inner 0 0 (Nat.zero_le _) (by omega)]
    rfl
  · rw [cmpLoop_eq _ A.inner B.inner 0 0 VOrdering.Equal (by omega)]
    rfl

/-- C10: purity of `merged` — `merged` is definitionally the in-place `merge`
applied to a clone of the receiver, the clone equals the receiver, and the
receiver (a value in this state-passing embedding of the mutating API) is
therefore left untouched: `merged` agrees with the pure merge of the two
argument values. -/
theorem merged_pure (A B : VersionVec) :
    A.merged B = (A.clone).merge B ∧ A.clone = A ∧ A.merged B = A.merge B :=
  ⟨rfl, rfl, rfl⟩

example : (VersionVec.from_vec [(1, 10), (2, 20), (3, 30)]).get 1 = some 10 := by decide
example : (VersionVec.from_vec [(1, 10), (2, 20), (3, 30)]).get 5 = none := by decide
example : VersionVec.cmp ⟨[(1, 10)]⟩ ⟨[]⟩ = VOrdering.Greater := by decide
example : VersionVec.cmp ⟨[(10, 0)]⟩ ⟨[(20, 0)]⟩ = VOrdering.Equal := by decide
example : VersionVec.cmp ⟨[(1, 10), (2, 20)]⟩ ⟨[(1, 8), (2, 22)]⟩ = VOrdering.Concurrent := by decide
example : (VersionVec.merged ⟨[(10, 1), (20, 2), (30, 1)]⟩
    ⟨[(5, 1), (10, 2), (15, 1), (20, 1), (25, 1), (35, 1)]⟩).inner
    = [(5, 1), (10, 2), (15, 1), (20, 2), (25, 1), (30, 1), (35, 1)] := by decide
example : ((VersionVec.bump_for ⟨[(1, 10), (2, 20), (3, 30)]⟩ 1).bump_for 0).inner
    = [(0, 1), (1, 11), (2, 20), (3, 30)] := by decide

end VersionVecLib
